import Mathlib

/-!
Verification of the self-update package (pkg/update/update.go).

Paths are modelled as lists of characters (Unix branch of the source:
the path separator is the slash character).  The Go standard-library
helpers used by the source (filepath.Clean, filepath.Join,
filepath.Split, strings.Split, strings.TrimSpace, strings.EqualFold,
strings.HasPrefix) are embedded below, and the source functions are
translated on top of them.  Filesystem and network effects are
modelled by explicit oracles (for example, a predicate saying which
MkdirAll calls fail).
-/

namespace UpdateUtils

/-- Whitespace test used by strings.TrimSpace (Latin-1 range of unicode.IsSpace). -/
def goIsSpace (c : Char) : Bool :=
  decide (c = ' ' ∨ c = '\t' ∨ c = '\n' ∨ c = '\u000b' ∨ c = '\u000c' ∨
    c = '\r' ∨ c = '\u0085' ∨ c = '\u00a0')

/-- strings.TrimSpace on a character list. -/
def trimSpaceL (p : List Char) : List Char :=
  ((p.dropWhile goIsSpace).reverse.dropWhile goIsSpace).reverse

/-- ASCII case folding of one character, as used by strings.EqualFold on ASCII input. -/
def foldCh (c : Char) : Char :=
  if 'A' ≤ c ∧ c ≤ 'Z' then Char.ofNat (c.toNat + 32) else c

/-- strings.EqualFold restricted to ASCII folding. -/
def equalFold (a b : List Char) : Bool :=
  decide (a.map foldCh = b.map foldCh)

/-- Does the list start with the given character?  strings.HasPrefix with a
one-character pattern. -/
def headIs (c : Char) : List Char → Bool
  | [] => false
  | x :: _ => decide (x = c)

/-- One step of the character splitter: prepend a character to the first
segment, or start a new segment at a separator. -/
def splitStep (sep c : Char) : List (List Char) → List (List Char)
  | [] => [[]]
  | seg :: segs => if c = sep then [] :: seg :: segs else (c :: seg) :: segs

/-- strings.Split on a separator character: splits into segments, keeping
empty segments, always returning at least one segment. -/
def chSplit (sep : Char) : List Char → List (List Char)
  | [] => [[]]
  | c :: rest => splitStep sep c (chSplit sep rest)

/-- Join segments with the slash separator (inverse of chSplit at the slash). -/
def joinSegs : List (List Char) → List Char
  | [] => []
  | [s] => s
  | s :: rest => s ++ '/' :: joinSegs rest

/-- The parent-directory segment. -/
def ddSeg : List Char := ['.', '.']

/-- Effect of a parent-directory segment on the stack: at the root of an
absolute path it is dropped, at the bottom of a relative path it
accumulates, and otherwise it pops one normal segment. -/
def ddStep (rooted : Bool) : List (List Char) → List (List Char)
  | [] => if rooted then [] else [ddSeg]
  | top :: out2 => if top = ddSeg then ddSeg :: top :: out2 else out2

/-- The stack machine inside filepath.Clean: processes path segments left
to right, keeping the cleaned segments in a stack (top first).  A dot or
empty segment is dropped; a parent segment is handled by ddStep; every
other segment is pushed. -/
def cleanStack (rooted : Bool) : List (List Char) → List (List Char) → List (List Char)
  | out, [] => out
  | out, seg :: rest =>
    if seg = [] ∨ seg = ['.'] then cleanStack rooted out rest
    else if seg = ddSeg then cleanStack rooted (ddStep rooted out) rest
    else cleanStack rooted (seg :: out) rest

/-- filepath.Clean for slash-separated paths. -/
def goCleanL (p : List Char) : List Char :=
  let rooted := headIs '/' p
  let S := cleanStack rooted [] (chSplit '/' p)
  if rooted then '/' :: joinSegs S.reverse
  else if S = [] then ['.'] else joinSegs S.reverse

/-- filepath.Join on a list of elements: leading empty elements are dropped;
if all elements are empty the result is empty; otherwise the elements are
joined with slashes and cleaned. -/
def goJoinL (elems : List (List Char)) : List Char :=
  match elems.dropWhile (fun s => decide (s = [])) with
  | [] => []
  | rest => goCleanL (joinSegs rest)

/-- File-name half of filepath.Split: everything after the last slash. -/
def fileNameOf (p : List Char) : List Char :=
  ((p.reverse).takeWhile (fun c => decide (¬ c = '/'))).reverse

/-- Directory half of filepath.Split: everything up to and including the
last slash. -/
def dirOf (p : List Char) : List Char :=
  ((p.reverse).dropWhile (fun c => decide (¬ c = '/'))).reverse

/-- The file-name skip test of calculateTemplateAbsolutePath: unless the
name is a case-insensitive match for the version marker, skip names that
are blank, dot-prefixed, or a case-insensitive README.md. -/
def fileNameSkip (fileName : List Char) : Bool :=
  !(equalFold fileName ".version".toList) &&
    (decide (trimSpaceL fileName = []) || headIs '.' fileName ||
      equalFold fileName "README.md".toList)

/-- The relative directory of an archive entry after discarding the
archive's root directory component: the entry's directory is split on
slashes, the first chunk is dropped, and the remainder is rejoined. -/
def relativeDirWithoutZipRoot (zipFilePath : List Char) : List Char :=
  goJoinL (chSplit '/' (dirOf zipFilePath)).tail

/-- Error message produced when creating the destination directory fails. -/
def mkdirFailMsg (d : List Char) : List Char :=
  "failed to create template folder: ".toList ++ d

/-- calculateTemplateAbsolutePath over character lists (Unix branch of the
source).  MkdirAll is modelled by the oracle mkdirFails telling which
directory creations fail.  Returns (destination path, skip, error). -/
def calcTemplatePathL (mkdirFails : List Char → Bool)
    (zipFilePath configuredTemplateDirectory : List Char) :
    List Char × Bool × Option (List Char) :=
  if fileNameSkip (fileNameOf zipFilePath) then ([], true, none)
  else if headIs '.' (relativeDirWithoutZipRoot zipFilePath) then
    ([], true, none)
  else if mkdirFails
      (goJoinL [configuredTemplateDirectory,
        relativeDirWithoutZipRoot zipFilePath]) then
    ([], false,
      some (mkdirFailMsg
        (goJoinL [configuredTemplateDirectory,
          relativeDirWithoutZipRoot zipFilePath])))
  else
    (goJoinL [goJoinL [configuredTemplateDirectory,
        relativeDirWithoutZipRoot zipFilePath],
      fileNameOf zipFilePath], false, none)

/-- calculateTemplateAbsolutePath on strings. -/
def calculateTemplateAbsolutePath (mkdirFails : String → Bool)
    (zipFilePath configuredTemplateDirectory : String) :
    String × Bool × Option String :=
  match calcTemplatePathL (fun l => mkdirFails l.asString)
      zipFilePath.toList configuredTemplateDirectory.toList with
  | (p, sk, e) => (p.asString, sk, e.map List.asString)

/-- Boolean list-prefix test on segment lists. -/
def segsPre : List (List Char) → List (List Char) → Bool
  | [], _ => true
  | _ :: _, [] => false
  | a :: as, b :: bs => decide (a = b) && segsPre as bs

/-- Canonical segment stack of a path: the result of running the Clean
stack machine on its slash-separated segments (top of stack first). -/
def stackOf (p : List Char) : List (List Char) :=
  cleanStack (headIs '/' p) [] (chSplit '/' p)

/-- Descendant test on character-list paths, stated on cleaned canonical
forms: both paths agree on absoluteness, the cleaned base segments are a
leading piece of the cleaned path segments, and no remaining segment is a
parent reference. -/
def isDescendantL (p b : List Char) : Bool :=
  (headIs '/' p == headIs '/' b) &&
    segsPre (stackOf b).reverse (stackOf p).reverse &&
    ((stackOf p).reverse.drop (stackOf b).reverse.length).all
      (fun s => !(decide (s = ddSeg)))

/-- The descendant property named by the specification: the destination
path stays inside the base directory. -/
def isDescendant (p b : String) : Bool :=
  isDescendantL p.toList b.toList

/-- A normal path segment: nonempty, without separators, and not a dot or
parent reference. -/
def NormalSeg (s : List Char) : Prop :=
  s ≠ [] ∧ '/' ∉ s ∧ s ≠ ['.'] ∧ s ≠ ddSeg

/-- Canonical form of a Clean stack: some normal segments on top of a run
of parent references, the run being empty for absolute paths. -/
def CanonStack (r : Bool) (S : List (List Char)) : Prop :=
  ∃ (N : List (List Char)) (k : Nat),
    S = N.reverse ++ List.replicate k ddSeg ∧ (∀ s ∈ N, NormalSeg s) ∧
      (r = true → k = 0)

/-- The per-entry extraction callback built inside
GetUpdateDirFromRepoCallback: resolve the destination, propagate a
resolution error, skip silently when told to, then read the entry's bytes
and write them.  Reading and writing are modelled by oracles; the result
is the callback's returned error (none on success). -/
def extractEntryCallback (mkdirFails : String → Bool)
    (readResult : Option String) (writeResult : String → Option String)
    (path dir : String) : Option String :=
  match calculateTemplateAbsolutePath mkdirFails path dir with
  | (templateAbsolutePath, skipFile, err) =>
    match err with
    | some e => some e
    | none =>
      if skipFile then none
      else
        match readResult with
        | none => some ("failed to read file " ++ templateAbsolutePath)
        | some _ => writeResult templateAbsolutePath

/-- Modelled from the spec: DownloadSourceWithCallback (declared in a file
of this repository that is not part of the given sources) iterates the
archive entries in order, calling the callback on each; a callback failure
aborts the remaining iteration and propagates as the operation's failure. -/
def downloadSourceWithCallback (cb : String → Option String) :
    List String → Option String
  | [] => none
  | e :: rest =>
    match cb e with
    | some err => some err
    | none => downloadSourceWithCallback cb rest

/-- Oracles for the external collaborators consulted by the executable
update: release download, tag and current version parsing, the outdated
test, the permission check, asset extraction, apply, and rollback. -/
structure UpdateEnv where
  downloadOk : Bool
  tagParseOk : Bool
  currentParseOk : Bool
  outdated : Bool
  permissionOk : Bool
  assetOk : Bool
  applyOk : Bool
  rollbackOk : Bool
  deriving DecidableEq

/-- Steps the executable-update callback can perform, in the order it
performs them. -/
inductive UpdateStep
  | contactReleaseSource
  | parseTagVersion
  | parseCurrentVersion
  | checkOutdated
  | checkPermissions
  | fetchAssetBytes
  | applyUpdate
  | rollbackUpdate
  deriving DecidableEq

/-- Terminal outcomes of one run of the executable-update callback.  The
fatal constructors are the gologger.Fatal sites of the source; the
rolled-back apply failure is reported at error level and exits with a
nonzero code without a fatal log. -/
inductive UpdateOutcome
  | fatalDownloadFailed
  | fatalTagParseFailed
  | fatalCurrentParseFailed
  | alreadyUpdated
  | fatalInsufficientPermission
  | fatalExecutableNotFound
  | applyFailedRolledBack
  | fatalRollbackFailedReinstall
  | updated
  deriving DecidableEq

/-- Which outcomes are produced through a fatal log call in the source. -/
def UpdateOutcome.isFatal : UpdateOutcome → Bool
  | .fatalDownloadFailed => true
  | .fatalTagParseFailed => true
  | .fatalCurrentParseFailed => true
  | .alreadyUpdated => false
  | .fatalInsufficientPermission => true
  | .fatalExecutableNotFound => true
  | .applyFailedRolledBack => false
  | .fatalRollbackFailedReinstall => true
  | .updated => false

/-- The sequence of steps performed by the executable-update callback for
a given environment, following the source's control flow. -/
def updateSteps (env : UpdateEnv) : List UpdateStep :=
  [.contactReleaseSource] ++
    if !env.downloadOk then [] else
    [.parseTagVersion] ++
    if !env.tagParseOk then [] else
    [.parseCurrentVersion] ++
    if !env.currentParseOk then [] else
    [.checkOutdated] ++
    if !env.outdated then [] else
    [.checkPermissions] ++
    if !env.permissionOk then [] else
    [.fetchAssetBytes] ++
    if !env.assetOk then [] else
    [.applyUpdate] ++
    if !env.applyOk then [.rollbackUpdate] else []

/-- The terminal outcome of the executable-update callback for a given
environment, following the source's control flow. -/
def updateOutcomeOf (env : UpdateEnv) : UpdateOutcome :=
  if !env.downloadOk then .fatalDownloadFailed
  else if !env.tagParseOk then .fatalTagParseFailed
  else if !env.currentParseOk then .fatalCurrentParseFailed
  else if !env.outdated then .alreadyUpdated
  else if !env.permissionOk then .fatalInsufficientPermission
  else if !env.assetOk then .fatalExecutableNotFound
  else if !env.applyOk then
    if !env.rollbackOk then .fatalRollbackFailedReinstall
    else .applyFailedRolledBack
  else .updated

/-- One run of the callback returned by GetUpdateToolFromRepoCallback:
the outcome, the repository identifier handed to the release source, and
the performed steps. -/
structure UpdateRun where
  outcome : UpdateOutcome
  contactedRepo : String
  steps : List UpdateStep
  deriving DecidableEq

set_option linter.unusedVariables false in
/-- GetUpdateToolFromRepoCallback: defaults an empty repository name to
the tool name, then contacts the release source and proceeds through
parsing, the outdated check, the permission check, asset extraction and
apply-or-rollback, as in the source.  The running version string is only
ever handed to the parser, whose result the environment models. -/
def getUpdateToolFromRepoCallbackRun (toolName version repoName : String)
    (env : UpdateEnv) : UpdateRun :=
  let repo := if repoName = "" then toolName else repoName
  { outcome := updateOutcomeOf env
    contactedRepo := repo
    steps := updateSteps env }

/-- Oracles for GetToolVersionCallback: release download and tag parsing,
and the normalized latest tag on success. -/
structure VersionEnv where
  downloadOk : Bool
  tagParseOk : Bool
  latestTag : String

/-- GetToolVersionCallback: defaults an empty repository name to the tool
name, contacts the release source, and returns the parsed latest version
or an error; the second component is the repository identifier used. -/
def getToolVersionCallbackRun (toolName repoName : String)
    (env : VersionEnv) : Except String String × String :=
  let repo := if repoName = "" then toolName else repoName
  if !env.downloadOk then (.error "failed to download latest release", repo)
  else if !env.tagParseOk then
    (.error "failed to parse semversion from tagname", repo)
  else (.ok env.latestTag, repo)

/-- Oracles for GetUpdateDirFromRepoCallback: release download and the
source archive's entry paths. -/
structure DirEnv where
  downloadOk : Bool
  entries : List String

/-- GetUpdateDirFromRepoCallback: defaults an empty repository name to the
tool name, contacts the release source, and streams the source archive
through the per-entry extraction callback; the second component is the
repository identifier used. -/
def getUpdateDirFromRepoCallbackRun (toolName dir repoName : String)
    (mkdirFails : String → Bool) (readResult : Option String)
    (writeResult : String → Option String) (env : DirEnv) :
    Option String × String :=
  let repo := if repoName = "" then toolName else repoName
  if !env.downloadOk then (some "failed to download latest release", repo)
  else
    (downloadSourceWithCallback
      (fun path => extractEntryCallback mkdirFails readResult writeResult path dir)
      env.entries, repo)

/-- Runtime identity oracles for GetpdtmParams: the operating system,
architecture and toolchain version of the running binary, and the result
of protected machine-id generation (none models a generation failure). -/
structure RuntimeEnv where
  goos : String
  goarch : String
  goVersion : String
  machineIdResult : Option String

/-- buildMachineId: the protected machine id, falling back to the literal
"unknown" when generation fails. -/
def buildMachineId (machineIdResult : Option String) : String :=
  match machineIdResult with
  | none => "unknown"
  | some m => m

/-- The parameters added by GetpdtmParams, in source order. -/
def getpdtmParamsList (env : RuntimeEnv) (version : String) :
    List (String × String) :=
  [("os", env.goos), ("arch", env.goarch), ("go_version", env.goVersion),
    ("v", version), ("machine_id", buildMachineId env.machineIdResult)]

/-- Byte-wise lexicographic order on character lists, as used by the sort
inside url.Values.Encode. -/
def lexLe : List Char → List Char → Bool
  | [], _ => true
  | _ :: _, [] => false
  | a :: as, b :: bs => if a = b then lexLe as bs else decide (a < b)

/-- Key order of url.Values.Encode. -/
def keyLe (p q : String × String) : Bool := lexLe p.1.toList q.1.toList

/-- Insertion into a key-sorted parameter list. -/
def insertByKey (p : String × String) :
    List (String × String) → List (String × String)
  | [] => [p]
  | q :: rest => if keyLe p q then p :: q :: rest else q :: insertByKey p rest

/-- Key-sorting of a parameter list, as url.Values.Encode performs before
encoding. -/
def sortByKey : List (String × String) → List (String × String)
  | [] => []
  | p :: rest => insertByKey p (sortByKey rest)

/-- GetpdtmParams, modelled up to percent-encoding: the encoded query's
parameters in encoded order (url.Values.Encode emits keys sorted). -/
def GetpdtmParams (env : RuntimeEnv) (version : String) :
    List (String × String) :=
  sortByKey (getpdtmParamsList env version)

/-- TLS client configuration of the transport. -/
structure TLSClientConfig where
  insecureSkipVerify : Bool
  deriving DecidableEq

/-- The transport fields set by the package initializer. -/
structure HTTPTransport where
  proxyFromEnvironment : Bool
  tlsClientConfig : TLSClientConfig
  deriving DecidableEq

/-- The client fields set by the package initializer. -/
structure HTTPClient where
  timeoutSeconds : Nat
  transport : HTTPTransport
  deriving DecidableEq

/-- The version-check timeout variable (five seconds). -/
def VersionCheckTimeoutSeconds : Nat := 5

/-- The value stored in DefaultHttpClient by the package initializer:
version-check timeout, environment proxy, and a TLS configuration that
skips certificate verification. -/
def defaultHttpClientAfterInit : HTTPClient :=
  { timeoutSeconds := VersionCheckTimeoutSeconds
    transport :=
      { proxyFromEnvironment := true
        tlsClientConfig := { insecureSkipVerify := true } } }

/-! ### Facts about the splitter and the joiner -/

theorem chSplit_ne_nil (sep : Char) (p : List Char) : chSplit sep p ≠ [] := by
  cases p with
  | nil => simp [chSplit]
  | cons c rest =>
    simp only [chSplit]
    cases h : chSplit sep rest with
    | nil => simp [splitStep]
    | cons seg segs =>
      simp only [splitStep]
      split <;> simp

theorem chSplit_slash_cons (b : List Char) :
    chSplit '/' ('/' :: b) = [] :: chSplit '/' b := by
  simp only [chSplit]
  cases h : chSplit '/' b with
  | nil => exact absurd h (chSplit_ne_nil _ _)
  | cons seg segs => simp [splitStep]

theorem splitStep_cons (sep c : Char) (seg : List Char)
    (segs : List (List Char)) :
    splitStep sep c (seg :: segs) =
      if c = sep then [] :: seg :: segs else (c :: seg) :: segs := rfl

theorem chSplit_append (a b : List Char) :
    chSplit '/' (a ++ '/' :: b) = chSplit '/' a ++ chSplit '/' b := by
  induction a with
  | nil => simpa using chSplit_slash_cons b
  | cons c a ih =>
    have e1 : chSplit '/' ((c :: a) ++ '/' :: b) =
        splitStep '/' c (chSplit '/' (a ++ '/' :: b)) := rfl
    have e2 : chSplit '/' (c :: a) = splitStep '/' c (chSplit '/' a) := rfl
    rw [e1, ih, e2]
    cases h : chSplit '/' a with
    | nil => exact absurd h (chSplit_ne_nil _ _)
    | cons seg segs =>
      rw [List.cons_append, splitStep_cons, splitStep_cons]
      by_cases hc : c = '/'
      · rw [if_pos hc, if_pos hc]; rfl
      · rw [if_neg hc, if_neg hc]; rfl

theorem not_mem_of_mem_chSplit (sep : Char) (p : List Char) :
    ∀ s ∈ chSplit sep p, sep ∉ s := by
  induction p with
  | nil =>
    intro s hs
    simp only [chSplit, List.mem_singleton] at hs
    simp [hs]
  | cons c rest ih =>
    intro s hs
    simp only [chSplit] at hs
    cases h : chSplit sep rest with
    | nil => exact absurd h (chSplit_ne_nil _ _)
    | cons seg segs =>
      rw [h] at hs
      have hseg : sep ∉ seg := ih seg (by rw [h]; exact List.mem_cons_self ..)
      have hsegs : ∀ x ∈ segs, sep ∉ x :=
        fun x hx => ih x (by rw [h]; exact List.mem_cons_of_mem _ hx)
      simp only [splitStep] at hs
      by_cases hc : c = sep
      · rw [if_pos hc] at hs
        simp only [List.mem_cons] at hs
        rcases hs with hs | hs | hs
        · simp [hs]
        · exact hs ▸ hseg
        · exact hsegs s hs
      · rw [if_neg hc] at hs
        simp only [List.mem_cons] at hs
        rcases hs with hs | hs
        · subst hs
          intro hmem
          rcases List.mem_cons.mp hmem with hx | hx
          · exact hc hx.symm
          · exact hseg hx
        · exact hsegs s hs

theorem chSplit_eq_single (sep : Char) (p : List Char) (h : sep ∉ p) :
    chSplit sep p = [p] := by
  induction p with
  | nil => rfl
  | cons c rest ih =>
    have hc : ¬ c = sep := fun hh => h (hh ▸ List.mem_cons_self ..)
    have hr : sep ∉ rest := fun hh => h (List.mem_cons_of_mem _ hh)
    simp [chSplit, ih hr, splitStep, hc]

theorem joinSegs_chSplit (p : List Char) : joinSegs (chSplit '/' p) = p := by
  induction p with
  | nil => rfl
  | cons c rest ih =>
    simp only [chSplit]
    cases h : chSplit '/' rest with
    | nil => exact absurd h (chSplit_ne_nil _ _)
    | cons seg segs =>
      rw [h] at ih
      simp only [splitStep]
      by_cases hc : c = '/'
      · subst hc
        rw [if_pos rfl]
        simpa [joinSegs] using ih
      · rw [if_neg hc]
        cases segs with
        | nil => simp only [joinSegs] at ih ⊢; rw [ih]
        | cons t ts =>
          simp only [joinSegs, List.cons_append] at ih ⊢
          rw [ih]

theorem chSplit_joinSegs (L : List (List Char)) (h0 : L ≠ [])
    (h1 : ∀ s ∈ L, '/' ∉ s) : chSplit '/' (joinSegs L) = L := by
  induction L with
  | nil => exact absurd rfl h0
  | cons s rest ih =>
    cases rest with
    | nil => simpa [joinSegs] using chSplit_eq_single '/' s (h1 s (by simp))
    | cons t ts =>
      have hrec := ih (by simp) (fun x hx => h1 x (List.mem_cons_of_mem _ hx))
      simp only [joinSegs]
      rw [chSplit_append, hrec, chSplit_eq_single '/' s (h1 s (by simp))]
      rfl

theorem headIs_joinSegs (c : Char) (s : List Char) (rest : List (List Char))
    (hs : s ≠ []) : headIs c (joinSegs (s :: rest)) = headIs c s := by
  cases s with
  | nil => exact absurd rfl hs
  | cons x s' =>
    cases rest with
    | nil => rfl
    | cons t ts => rfl

theorem joinSegs_ne_nil (s : List Char) (rest : List (List Char))
    (hs : s ≠ []) : joinSegs (s :: rest) ≠ [] := by
  cases s with
  | nil => exact absurd rfl hs
  | cons x s' =>
    cases rest with
    | nil => simp [joinSegs]
    | cons t ts => simp [joinSegs]

theorem headIs_eq_false_of_not_mem (c : Char) (p : List Char) (h : c ∉ p) :
    headIs c p = false := by
  cases p with
  | nil => rfl
  | cons x rest =>
    simp only [headIs, decide_eq_false_iff_not]
    rintro rfl
    exact h (List.mem_cons_self ..)

/-! ### Facts about the Clean stack machine -/

theorem cleanStack_nil (r : Bool) (out : List (List Char)) :
    cleanStack r out [] = out := rfl

theorem cleanStack_cons (r : Bool) (out : List (List Char)) (seg : List Char)
    (rest : List (List Char)) :
    cleanStack r out (seg :: rest) =
      if seg = [] ∨ seg = ['.'] then cleanStack r out rest
      else if seg = ddSeg then cleanStack r (ddStep r out) rest
      else cleanStack r (seg :: out) rest := rfl

theorem cleanStack_append (r : Bool) (l1 l2 : List (List Char)) :
    ∀ out, cleanStack r out (l1 ++ l2) = cleanStack r (cleanStack r out l1) l2 := by
  induction l1 with
  | nil => intro out; rfl
  | cons seg rest ih =>
    intro out
    rw [List.cons_append, cleanStack_cons, cleanStack_cons]
    by_cases h1 : seg = [] ∨ seg = ['.']
    · rw [if_pos h1, if_pos h1, ih]
    · rw [if_neg h1, if_neg h1]
      by_cases h2 : seg = ddSeg
      · rw [if_pos h2, if_pos h2, ih]
      · rw [if_neg h2, if_neg h2, ih]

theorem cleanStack_normals (r : Bool) (l : List (List Char))
    (h : ∀ s ∈ l, s ≠ [] ∧ s ≠ ['.'] ∧ s ≠ ddSeg) :
    ∀ out, cleanStack r out l = l.reverse ++ out := by
  induction l with
  | nil => intro out; rfl
  | cons seg rest ih =>
    intro out
    obtain ⟨h1, h2, h3⟩ := h seg (List.mem_cons_self ..)
    rw [cleanStack_cons, if_neg (by simp [h1, h2]), if_neg h3,
      ih (fun s hs => h s (List.mem_cons_of_mem _ hs))]
    simp

theorem cleanStack_dds (k : Nat) :
    ∀ j, cleanStack false (List.replicate j ddSeg) (List.replicate k ddSeg) =
      List.replicate (k + j) ddSeg := by
  induction k with
  | zero => intro j; simp [cleanStack_nil]
  | succ k ih =>
    intro j
    rw [List.replicate_succ, cleanStack_cons, if_neg (by decide), if_pos rfl]
    have hstep : ddStep false (List.replicate j ddSeg) =
        List.replicate (j + 1) ddSeg := by
      cases j with
      | zero => rfl
      | succ j => simp [ddStep, List.replicate_succ]
    rw [hstep, ih (j + 1)]
    congr 1
    omega

theorem cleanStack_canon (r : Bool) (l : List (List Char))
    (hl : ∀ s ∈ l, '/' ∉ s) :
    ∀ S, CanonStack r S → CanonStack r (cleanStack r S l) := by
  induction l with
  | nil => intro S hS; exact hS
  | cons seg rest ih =>
    intro S hS
    have hlr : ∀ s ∈ rest, '/' ∉ s := fun s hs => hl s (List.mem_cons_of_mem _ hs)
    rw [cleanStack_cons]
    by_cases h1 : seg = [] ∨ seg = ['.']
    · rw [if_pos h1]; exact ih hlr S hS
    · rw [if_neg h1]
      by_cases h2 : seg = ddSeg
      · rw [if_pos h2]
        refine ih hlr _ ?_
        obtain ⟨N, k, hSeq, hN, hk⟩ := hS
        rcases List.eq_nil_or_concat N with hN0 | ⟨N0, a, hN0⟩
        · subst hN0
          simp only [List.reverse_nil, List.nil_append] at hSeq
          subst hSeq
          cases k with
          | zero =>
            cases r with
            | false => exact ⟨[], 1, by simp [ddStep], by simp, by simp⟩
            | true => exact ⟨[], 0, by simp [ddStep], by simp, fun _ => rfl⟩
          | succ k =>
            cases r with
            | true => exact absurd (hk rfl) (by simp)
            | false =>
              refine ⟨[], k + 2, ?_, by simp, by simp⟩
              simp [List.replicate_succ, ddStep]
        · rw [List.concat_eq_append] at hN0
          subst hN0
          have ha : NormalSeg a := hN a (by simp)
          have hS2 : S = a :: (N0.reverse ++ List.replicate k ddSeg) := by
            simp [hSeq, List.reverse_append]
          rw [hS2]
          refine ⟨N0, k, ?_, fun s hs => hN s (List.mem_append_left _ hs), hk⟩
          simp [ddStep, if_neg ha.2.2.2]
      · rw [if_neg h2]
        refine ih hlr _ ?_
        obtain ⟨N, k, hSeq, hN, hk⟩ := hS
        refine ⟨N ++ [seg], k, ?_, ?_, hk⟩
        · simp [hSeq, List.reverse_append]
        · intro s hs
          rcases List.mem_append.mp hs with hs | hs
          · exact hN s hs
          · rw [List.mem_singleton] at hs
            rw [hs]
            exact ⟨fun hh => h1 (Or.inl hh), hl seg (List.mem_cons_self ..),
              fun hh => h1 (Or.inr hh), h2⟩

theorem canon_stackOf (p : List Char) : CanonStack (headIs '/' p) (stackOf p) :=
  cleanStack_canon _ _ (not_mem_of_mem_chSplit _ _) []
    ⟨[], 0, rfl, by simp, fun _ => rfl⟩

/-! ### Stability of cleaning -/

theorem stackOf_eq (p : List Char) :
    stackOf p = cleanStack (headIs '/' p) [] (chSplit '/' p) := rfl

theorem stackOf_nil : stackOf [] = [] := rfl

theorem goCleanL_eq (p : List Char) :
    goCleanL p = if headIs '/' p then '/' :: joinSegs (stackOf p).reverse
      else if stackOf p = [] then ['.'] else joinSegs (stackOf p).reverse := rfl

theorem headIs_append_left (c : Char) (a b : List Char) (ha : a ≠ []) :
    headIs c (a ++ b) = headIs c a := by
  cases a with
  | nil => exact absurd rfl ha
  | cons x a' => rfl

/-- Cleaning is stable: re-cleaning the printed form of a cleaned path
reproduces its absoluteness and its canonical stack, and the printed form
is never empty. -/
theorem goCleanL_stable (p : List Char) :
    headIs '/' (goCleanL p) = headIs '/' p ∧ stackOf (goCleanL p) = stackOf p ∧
      goCleanL p ≠ [] := by
  obtain ⟨N, k, hSeq, hN, hk⟩ := canon_stackOf p
  have hNfacts : ∀ s ∈ N, s ≠ [] ∧ s ≠ ['.'] ∧ s ≠ ddSeg :=
    fun s hs => ⟨(hN s hs).1, (hN s hs).2.2.1, (hN s hs).2.2.2⟩
  cases hr : headIs '/' p with
  | true =>
    have hk0 : k = 0 := hk hr
    subst hk0
    simp only [List.replicate, List.append_nil] at hSeq
    have hq : goCleanL p = '/' :: joinSegs N := by
      rw [goCleanL_eq, hr, hSeq]
      simp
    refine ⟨?_, ?_, ?_⟩
    · rw [hq]; rfl
    · rw [hq, hSeq]
      have hh : headIs '/' ('/' :: joinSegs N) = true := rfl
      rw [stackOf_eq, hh, chSplit_slash_cons, cleanStack_cons,
        if_pos (Or.inl rfl)]
      cases N with
      | nil => decide
      | cons n0 N' =>
        rw [chSplit_joinSegs _ (by simp) (fun s hs => (hN s hs).2.1),
          cleanStack_normals _ _ hNfacts]
        simp
    · rw [hq]; simp
  | false =>
    by_cases hS0 : stackOf p = []
    · have hq : goCleanL p = ['.'] := by
        rw [goCleanL_eq, hr, hS0]
        simp
      refine ⟨?_, ?_, ?_⟩
      · rw [hq]; rfl
      · rw [hq, hS0]; decide
      · rw [hq]; simp
    · have hSrev : (stackOf p).reverse = List.replicate k ddSeg ++ N := by
        rw [hSeq]
        simp [List.reverse_append]
      have hne : List.replicate k ddSeg ++ N ≠ [] := by
        intro hcon
        apply hS0
        have hrevnil : (stackOf p).reverse = [] := by rw [hSrev, hcon]
        simpa using hrevnil
      obtain ⟨s0, tail, hcons⟩ := List.exists_cons_of_ne_nil hne
      have hall : ∀ s ∈ List.replicate k ddSeg ++ N, s ≠ [] ∧ '/' ∉ s := by
        intro s hs
        rcases List.mem_append.mp hs with hs | hs
        · have hdd : s = ddSeg := List.eq_of_mem_replicate hs
          subst hdd
          exact ⟨by decide, by decide⟩
        · exact ⟨(hN s hs).1, (hN s hs).2.1⟩
      have hs0 : s0 ≠ [] ∧ '/' ∉ s0 :=
        hall s0 (by rw [hcons]; exact List.mem_cons_self ..)
      have hq : goCleanL p = joinSegs (List.replicate k ddSeg ++ N) := by
        rw [goCleanL_eq, hr, hSrev]
        simp [hS0]
      have hqhead : headIs '/' (joinSegs (List.replicate k ddSeg ++ N)) = false := by
        rw [hcons, headIs_joinSegs _ _ _ hs0.1]
        exact headIs_eq_false_of_not_mem _ _ hs0.2
      refine ⟨?_, ?_, ?_⟩
      · rw [hq, hqhead]
      · rw [hq, stackOf_eq, hqhead,
          chSplit_joinSegs _ hne (fun s hs => (hall s hs).2),
          cleanStack_append]
        have hdds : cleanStack false [] (List.replicate k ddSeg) =
            List.replicate k ddSeg := by
          have hd := cleanStack_dds k 0
          simpa using hd
        rw [hdds, cleanStack_normals _ _ hNfacts, hSeq]
      · rw [hq, hcons]
        exact joinSegs_ne_nil _ _ hs0.1

theorem headIs_goCleanL (p : List Char) :
    headIs '/' (goCleanL p) = headIs '/' p := (goCleanL_stable p).1

theorem stackOf_goCleanL (p : List Char) :
    stackOf (goCleanL p) = stackOf p := (goCleanL_stable p).2.1

theorem goCleanL_ne_nil (p : List Char) : goCleanL p ≠ [] :=
  (goCleanL_stable p).2.2

/-! ### Facts about dropWhile, takeWhile and goJoinL -/

theorem goJoinL_eq_nil (elems : List (List Char))
    (h : elems.dropWhile (fun s => decide (s = [])) = []) : goJoinL elems = [] := by
  unfold goJoinL
  rw [h]

theorem goJoinL_eq_cons (elems : List (List Char)) (s : List Char)
    (rest : List (List Char))
    (h : elems.dropWhile (fun s => decide (s = [])) = s :: rest) :
    goJoinL elems = goCleanL (joinSegs (s :: rest)) := by
  unfold goJoinL
  rw [h]

theorem dropWhile_head_false {α : Type} (p : α → Bool) (l : List α) (x : α)
    (xs : List α) (h : l.dropWhile p = x :: xs) : p x = false := by
  induction l with
  | nil => exact absurd h (by simp)
  | cons a rest ih =>
    rw [List.dropWhile_cons] at h
    by_cases hp : p a = true
    · rw [if_pos hp] at h
      exact ih h
    · rw [if_neg hp] at h
      injection h with h1 h2
      subst h1
      simpa using hp

theorem mem_of_mem_dropWhile {α : Type} (p : α → Bool) (l : List α) (x : α)
    (h : x ∈ l.dropWhile p) : x ∈ l := by
  induction l with
  | nil => exact h
  | cons a rest ih =>
    rw [List.dropWhile_cons] at h
    by_cases hp : p a = true
    · rw [if_pos hp] at h
      exact List.mem_cons_of_mem _ (ih h)
    · rw [if_neg hp] at h
      exact h

/-! ### Structure of the root-stripped relative directory -/

theorem rel_facts (z : List Char)
    (h : headIs '.' (relativeDirWithoutZipRoot z) = false) :
    ∃ M : List (List Char), (∀ s ∈ M, NormalSeg s) ∧
      (∀ (r : Bool) (out : List (List Char)),
        cleanStack r out (chSplit '/' (relativeDirWithoutZipRoot z)) =
          M.reverse ++ out) ∧
      headIs '/' (relativeDirWithoutZipRoot z) = false := by
  have hfree : ∀ s ∈ (chSplit '/' (dirOf z)).tail, '/' ∉ s :=
    fun s hs => not_mem_of_mem_chSplit '/' (dirOf z) s (List.mem_of_mem_tail hs)
  cases hdw : (chSplit '/' (dirOf z)).tail.dropWhile (fun s => decide (s = [])) with
  | nil =>
    have hrel : relativeDirWithoutZipRoot z = [] := goJoinL_eq_nil _ hdw
    refine ⟨[], by simp, ?_, by rw [hrel]; rfl⟩
    intro r out
    rw [hrel, show chSplit '/' ([] : List Char) = [[]] from rfl,
      cleanStack_cons, if_pos (Or.inl rfl), cleanStack_nil]
    simp
  | cons s rest =>
    have hrel : relativeDirWithoutZipRoot z = goCleanL (joinSegs (s :: rest)) :=
      goJoinL_eq_cons _ _ _ hdw
    have hsne : s ≠ [] := by
      have hd := dropWhile_head_false _ _ _ _ hdw
      simpa using hd
    have hmemfree : ∀ x ∈ s :: rest, '/' ∉ x := by
      intro x hx
      exact hfree x (mem_of_mem_dropWhile _ _ _ (hdw ▸ hx))
    have hth : headIs '/' (joinSegs (s :: rest)) = false := by
      rw [headIs_joinSegs _ _ _ hsne]
      exact headIs_eq_false_of_not_mem _ _ (hmemfree s (List.mem_cons_self ..))
    obtain ⟨N, k, hSeq, hN, hk⟩ := canon_stackOf (joinSegs (s :: rest))
    by_cases hS0 : stackOf (joinSegs (s :: rest)) = []
    · have hdot : relativeDirWithoutZipRoot z = ['.'] := by
        rw [hrel, goCleanL_eq, hth, hS0]
        simp
      rw [hdot] at h
      exact absurd h (by decide)
    · have hSrev : (stackOf (joinSegs (s :: rest))).reverse =
          List.replicate k ddSeg ++ N := by
        rw [hSeq]
        simp [List.reverse_append]
      have hrel2 : relativeDirWithoutZipRoot z =
          joinSegs (List.replicate k ddSeg ++ N) := by
        rw [hrel, goCleanL_eq, hth, hSrev]
        simp [hS0]
      cases k with
      | succ k' =>
        rw [List.replicate_succ, List.cons_append] at hrel2
        rw [hrel2, headIs_joinSegs _ _ _ (by decide)] at h
        exact absurd h (by decide)
      | zero =>
        simp only [List.replicate, List.nil_append] at hrel2
        simp only [List.replicate, List.append_nil] at hSeq
        have hNne : N ≠ [] := by
          intro hcon
          apply hS0
          rw [hSeq, hcon]
          rfl
        obtain ⟨n0, N', hN0⟩ := List.exists_cons_of_ne_nil hNne
        have hn0 : NormalSeg n0 := hN n0 (by rw [hN0]; exact List.mem_cons_self ..)
        refine ⟨N, hN, ?_, ?_⟩
        · intro r out
          rw [hrel2, chSplit_joinSegs _ hNne (fun x hx => (hN x hx).2.1),
            cleanStack_normals _ _ (fun x hx =>
              ⟨(hN x hx).1, (hN x hx).2.2.1, (hN x hx).2.2.2⟩)]
        · rw [hrel2, hN0, headIs_joinSegs _ _ _ hn0.1]
          exact headIs_eq_false_of_not_mem _ _ hn0.2.1

/-! ### The file name of a non-skipped entry is a normal segment -/

theorem fileNameOf_no_slash (z : List Char) : '/' ∉ fileNameOf z := by
  unfold fileNameOf
  intro hmem
  rw [List.mem_reverse] at hmem
  have hp := List.mem_takeWhile_imp hmem
  simp at hp

theorem equalFold_length (a b : List Char) (h : equalFold a b = true) :
    a.length = b.length := by
  unfold equalFold at h
  rw [decide_eq_true_eq] at h
  calc a.length = (a.map foldCh).length := (List.length_map ..).symm
    _ = (b.map foldCh).length := by rw [h]
    _ = b.length := List.length_map ..

theorem fileName_normal (z : List Char)
    (h : fileNameSkip (fileNameOf z) = false) : NormalSeg (fileNameOf z) := by
  have hfree := fileNameOf_no_slash z
  by_cases hef : equalFold (fileNameOf z) ".version".toList = true
  · have hlen : (fileNameOf z).length = 8 := by
      rw [equalFold_length _ _ hef]
      decide
    refine ⟨?_, hfree, ?_, ?_⟩
    · intro hcon; rw [hcon] at hlen; simp at hlen
    · intro hcon; rw [hcon] at hlen; simp at hlen
    · intro hcon; rw [hcon] at hlen; simp [ddSeg] at hlen
  · unfold fileNameSkip at h
    rw [Bool.not_eq_true] at hef
    rw [hef] at h
    simp only [Bool.not_false, Bool.true_and] at h
    have hA : trimSpaceL (fileNameOf z) ≠ [] := by
      intro hcon
      rw [hcon] at h
      simp at h
    have hB : headIs '.' (fileNameOf z) = false := by
      cases hBc : headIs '.' (fileNameOf z) with
      | false => rfl
      | true => rw [hBc] at h; simp at h
    refine ⟨?_, hfree, ?_, ?_⟩
    · intro hcon
      exact hA (by rw [hcon]; rfl)
    · intro hcon
      rw [hcon] at hB
      exact absurd hB (by decide)
    · intro hcon
      rw [hcon] at hB
      exact absurd hB (by decide)

/-! ### Assembling the descendant property -/

theorem segsPre_append (xs ys : List (List Char)) : segsPre xs (xs ++ ys) = true := by
  induction xs with
  | nil => rfl
  | cons a as ih => simp [segsPre, ih]

theorem stackOf_append_slash (a b : List Char) (ha : a ≠ []) :
    stackOf (a ++ '/' :: b) =
      cleanStack (headIs '/' a) (stackOf a) (chSplit '/' b) := by
  obtain ⟨x, a', hx⟩ := List.exists_cons_of_ne_nil ha
  subst hx
  rw [stackOf_eq, chSplit_append,
    show headIs '/' ((x :: a') ++ '/' :: b) = headIs '/' (x :: a') from rfl,
    cleanStack_append]
  rfl

theorem isDescendantL_of_stacks (p b : List Char) (extra : List (List Char))
    (hhead : headIs '/' p = headIs '/' b)
    (hstack : (stackOf p).reverse = (stackOf b).reverse ++ extra)
    (hextra : ∀ s ∈ extra, s ≠ ddSeg) :
    isDescendantL p b = true := by
  unfold isDescendantL
  rw [hhead, hstack, segsPre_append, List.drop_left]
  simp only [beq_self_eq_true, Bool.true_and, Bool.and_true, List.all_eq_true]
  intro s hs
  simpa using hextra s hs

/-- Core of the traversal-safety claim, over character lists: a resolved,
non-skipped, error-free destination is a descendant of the base
directory. -/
theorem calcTemplate_descendantL (mk : List Char → Bool) (z b p : List Char)
    (h : calcTemplatePathL mk z b = (p, false, none)) :
    isDescendantL p b = true := by
  unfold calcTemplatePathL at h
  by_cases h1 : fileNameSkip (fileNameOf z) = true
  · rw [if_pos h1] at h
    simp at h
  rw [if_neg h1] at h
  by_cases h2 : headIs '.' (relativeDirWithoutZipRoot z) = true
  · rw [if_pos h2] at h
    simp at h
  rw [if_neg h2] at h
  by_cases h3 : mk (goJoinL [b, relativeDirWithoutZipRoot z]) = true
  · rw [if_pos h3] at h
    simp at h
  rw [if_neg h3] at h
  have hp : p = goJoinL [goJoinL [b, relativeDirWithoutZipRoot z], fileNameOf z] := by
    have := congrArg Prod.fst h
    simpa using this.symm
  subst hp
  have h1' : fileNameSkip (fileNameOf z) = false := by
    rwa [Bool.not_eq_true] at h1
  have h2' : headIs '.' (relativeDirWithoutZipRoot z) = false := by
    rwa [Bool.not_eq_true] at h2
  obtain ⟨M, hM, hMstack, hMhead⟩ := rel_facts z h2'
  have hfn : NormalSeg (fileNameOf z) := fileName_normal z h1'
  have hfnsplit : chSplit '/' (fileNameOf z) = [fileNameOf z] :=
    chSplit_eq_single _ _ hfn.2.1
  have hfnpush : ∀ (r : Bool) (out : List (List Char)),
      cleanStack r out (chSplit '/' (fileNameOf z)) = fileNameOf z :: out := by
    intro r out
    rw [hfnsplit,
      cleanStack_normals _ _ (by simpa using ⟨hfn.1, hfn.2.2.1, hfn.2.2.2⟩)]
    simp
  have hfnhead : headIs '/' (fileNameOf z) = false :=
    headIs_eq_false_of_not_mem _ _ hfn.2.1
  cases b with
  | nil =>
    by_cases hrel0 : relativeDirWithoutZipRoot z = []
    · rw [hrel0]
      have htmpl : goJoinL [([] : List Char), ([] : List Char)] = [] := rfl
      rw [htmpl]
      have hdw : List.dropWhile (fun s => decide (s = [])) [[], fileNameOf z] =
          [fileNameOf z] := by
        simp [List.dropWhile_cons, hfn.1]
      rw [goJoinL_eq_cons _ _ _ hdw,
        show joinSegs [fileNameOf z] = fileNameOf z from rfl]
      refine isDescendantL_of_stacks _ _ [fileNameOf z] ?_ ?_ ?_
      · rw [headIs_goCleanL, hfnhead]
        rfl
      · rw [stackOf_goCleanL, stackOf_eq, hfnhead, hfnpush]
        rfl
      · intro s hs
        rw [List.mem_singleton] at hs
        rw [hs]
        exact hfn.2.2.2
    · have hrelne : relativeDirWithoutZipRoot z ≠ [] := hrel0
      have hdw1 : List.dropWhile (fun s => decide (s = []))
          [[], relativeDirWithoutZipRoot z] = [relativeDirWithoutZipRoot z] := by
        simp [List.dropWhile_cons, hrelne]
      have htmpl : goJoinL [([] : List Char), relativeDirWithoutZipRoot z] =
          goCleanL (relativeDirWithoutZipRoot z) := by
        rw [goJoinL_eq_cons _ _ _ hdw1]
        rfl
      rw [htmpl]
      have htstack : stackOf (goCleanL (relativeDirWithoutZipRoot z)) = M.reverse := by
        rw [stackOf_goCleanL, stackOf_eq, hMhead, hMstack]
        simp
      have hthead : headIs '/' (goCleanL (relativeDirWithoutZipRoot z)) = false := by
        rw [headIs_goCleanL, hMhead]
      have htne := goCleanL_ne_nil (relativeDirWithoutZipRoot z)
      have hdw2 : List.dropWhile (fun s => decide (s = []))
          [goCleanL (relativeDirWithoutZipRoot z), fileNameOf z] =
          [goCleanL (relativeDirWithoutZipRoot z), fileNameOf z] := by
        rw [List.dropWhile_cons, if_neg (by simpa using htne)]
      rw [goJoinL_eq_cons _ _ _ hdw2,
        show joinSegs [goCleanL (relativeDirWithoutZipRoot z), fileNameOf z] =
          goCleanL (relativeDirWithoutZipRoot z) ++ '/' :: fileNameOf z from rfl]
      refine isDescendantL_of_stacks _ _ (M ++ [fileNameOf z]) ?_ ?_ ?_
      · rw [headIs_goCleanL, headIs_append_left _ _ _ htne, hthead]
        rfl
      · rw [stackOf_goCleanL, stackOf_append_slash _ _ htne, hthead, htstack,
          hfnpush]
        simp [stackOf_nil]
      · intro s hs
        rcases List.mem_append.mp hs with hs | hs
        · exact (hM s hs).2.2.2
        · rw [List.mem_singleton] at hs
          rw [hs]
          exact hfn.2.2.2
  | cons x b' =>
    have hbne : x :: b' ≠ ([] : List Char) := by simp
    have hdw1 : List.dropWhile (fun s => decide (s = []))
        [x :: b', relativeDirWithoutZipRoot z] =
        [x :: b', relativeDirWithoutZipRoot z] := by
      rw [List.dropWhile_cons, if_neg (by simp)]
    have htmpl : goJoinL [x :: b', relativeDirWithoutZipRoot z] =
        goCleanL ((x :: b') ++ '/' :: relativeDirWithoutZipRoot z) := by
      rw [goJoinL_eq_cons _ _ _ hdw1]
      rfl
    rw [htmpl]
    have htstack : stackOf (goCleanL ((x :: b') ++ '/' :: relativeDirWithoutZipRoot z)) =
        M.reverse ++ stackOf (x :: b') := by
      rw [stackOf_goCleanL, stackOf_append_slash _ _ hbne, hMstack]
    have hthead : headIs '/' (goCleanL ((x :: b') ++ '/' :: relativeDirWithoutZipRoot z)) =
        headIs '/' (x :: b') := by
      rw [headIs_goCleanL, headIs_append_left _ _ _ hbne]
    have htne := goCleanL_ne_nil ((x :: b') ++ '/' :: relativeDirWithoutZipRoot z)
    have hdw2 : List.dropWhile (fun s => decide (s = []))
        [goCleanL ((x :: b') ++ '/' :: relativeDirWithoutZipRoot z), fileNameOf z] =
        [goCleanL ((x :: b') ++ '/' :: relativeDirWithoutZipRoot z), fileNameOf z] := by
      rw [List.dropWhile_cons, if_neg (by simpa using htne)]
    rw [goJoinL_eq_cons _ _ _ hdw2,
      show joinSegs [goCleanL ((x :: b') ++ '/' :: relativeDirWithoutZipRoot z),
          fileNameOf z] =
        goCleanL ((x :: b') ++ '/' :: relativeDirWithoutZipRoot z) ++
          '/' :: fileNameOf z from rfl]
    refine isDescendantL_of_stacks _ _ (M ++ [fileNameOf z]) ?_ ?_ ?_
    · rw [headIs_goCleanL, headIs_append_left _ _ _ htne, hthead]
    · rw [stackOf_goCleanL, stackOf_append_slash _ _ htne, hthead, htstack,
        hfnpush]
      simp
    · intro s hs
      rcases List.mem_append.mp hs with hs | hs
      · exact (hM s hs).2.2.2
      · rw [List.mem_singleton] at hs
        rw [hs]
        exact hfn.2.2.2

/-! ### Bridging helpers for the string-level interface -/

theorem triple_eta (t : List Char × Bool × Option (List Char))
    (h1 : t.2.1 = false) (h2 : t.2.2 = none) : t = (t.1, false, none) :=
  Prod.ext rfl (Prod.ext h1 h2)

theorem takeWhile_append_fail {α : Type} (p : α → Bool) (xs : List α) (y : α)
    (ys : List α) (hy : p y = false) :
    (xs ++ y :: ys).takeWhile p = xs.takeWhile p := by
  induction xs with
  | nil =>
    rw [List.nil_append, List.takeWhile_cons, if_neg (by simp [hy])]
    rfl
  | cons a as ih =>
    rw [List.cons_append, List.takeWhile_cons, List.takeWhile_cons]
    by_cases hp : p a = true
    · rw [if_pos hp, if_pos hp, ih]
    · rw [if_neg hp, if_neg hp]

theorem dropWhile_append_fail {α : Type} (p : α → Bool) (xs : List α) (y : α)
    (ys : List α) (hy : p y = false) :
    (xs ++ y :: ys).dropWhile p = xs.dropWhile p ++ y :: ys := by
  induction xs with
  | nil =>
    rw [List.nil_append, List.dropWhile_cons, if_neg (by simp [hy])]
    rfl
  | cons a as ih =>
    rw [List.cons_append, List.dropWhile_cons, List.dropWhile_cons]
    by_cases hp : p a = true
    · rw [if_pos hp, if_pos hp, ih]
    · rw [if_neg hp, if_neg hp, List.cons_append]

theorem fileNameOf_append (root rest : List Char) :
    fileNameOf (root ++ '/' :: rest) = fileNameOf rest := by
  unfold fileNameOf
  rw [List.reverse_append, List.reverse_cons, List.append_assoc,
    List.singleton_append, takeWhile_append_fail _ _ _ _ (by simp)]

theorem dirOf_append (root rest : List Char) :
    dirOf (root ++ '/' :: rest) = root ++ '/' :: dirOf rest := by
  unfold dirOf
  rw [List.reverse_append, List.reverse_cons, List.append_assoc,
    List.singleton_append, dropWhile_append_fail _ _ _ _ (by simp)]
  simp

theorem relativeDir_append (root rest : List Char) (h : '/' ∉ root) :
    relativeDirWithoutZipRoot (root ++ '/' :: rest) =
      goJoinL (chSplit '/' (dirOf rest)) := by
  unfold relativeDirWithoutZipRoot
  rw [dirOf_append, chSplit_append, chSplit_eq_single _ _ h]
  rfl

theorem calcTemplatePathL_congr (mk : List Char → Bool) (z1 z2 b : List Char)
    (hf : fileNameOf z1 = fileNameOf z2)
    (hr : relativeDirWithoutZipRoot z1 = relativeDirWithoutZipRoot z2) :
    calcTemplatePathL mk z1 b = calcTemplatePathL mk z2 b := by
  unfold calcTemplatePathL
  rw [hf, hr]

/-! ### Claim theorems -/

/-- C1: for every archive entry path and every base directory,
calculateTemplateAbsolutePath either skips the entry, or fails with an
error, or resolves a destination path that is a descendant of the base
directory; in particular no traversal sequence in the entry path can
produce a non-descendant destination when skip is false and the error is
nil. -/
theorem calculateTemplateAbsolutePath_descendant (mkdirFails : String → Bool)
    (zipFilePath baseDirectory : String)
    (hskip : (calculateTemplateAbsolutePath mkdirFails zipFilePath baseDirectory).2.1 = false)
    (herr : (calculateTemplateAbsolutePath mkdirFails zipFilePath baseDirectory).2.2 = none) :
    isDescendant (calculateTemplateAbsolutePath mkdirFails zipFilePath baseDirectory).1
      baseDirectory = true := by
  have h22 : (calcTemplatePathL (fun l => mkdirFails l.asString)
      zipFilePath.toList baseDirectory.toList).2.2 = none :=
    Option.map_eq_none'.mp herr
  have h21 : (calcTemplatePathL (fun l => mkdirFails l.asString)
      zipFilePath.toList baseDirectory.toList).2.1 = false := hskip
  have hfull := triple_eta _ h21 h22
  exact calcTemplate_descendantL _ _ _ _ hfull

/-- Witness for C1 at a concrete entry and base. -/
theorem calculateTemplateAbsolutePath_descendant_witness :
    isDescendant (calculateTemplateAbsolutePath (fun _ => false)
      "root/sub/file.txt" "/base").1 "/base" = true :=
  calculateTemplateAbsolutePath_descendant (fun _ => false) "root/sub/file.txt"
    "/base" (by decide) (by decide)

/-- C3: an entry is skipped with no error when its file name is blank,
dot-prefixed, or a case-insensitive README.md — but a file name matching
the version marker bypasses these file-name rules, so that such an entry
is skipped exactly when the directory guard fires. -/
theorem fileName_skip_rules (mkdirFails : String → Bool) (zip base : String) :
    ((equalFold (fileNameOf zip.toList) ".version".toList = false →
      (trimSpaceL (fileNameOf zip.toList) = [] ∨
        headIs '.' (fileNameOf zip.toList) = true ∨
        equalFold (fileNameOf zip.toList) "README.md".toList = true) →
      calculateTemplateAbsolutePath mkdirFails zip base = ("", true, none)) ∧
     (equalFold (fileNameOf zip.toList) ".version".toList = true →
      (calculateTemplateAbsolutePath mkdirFails zip base).2.1 =
        headIs '.' (relativeDirWithoutZipRoot zip.toList))) := by
  constructor
  · intro hef hcond
    have hOr : (decide (trimSpaceL (fileNameOf zip.toList) = []) ||
        headIs '.' (fileNameOf zip.toList) ||
        equalFold (fileNameOf zip.toList) "README.md".toList) = true := by
      rcases hcond with h | h | h
      · rw [decide_eq_true h]
        rfl
      · rw [h]
        simp only [Bool.or_true, Bool.true_or]
      · rw [h]
        simp only [Bool.or_true]
    have hfs : fileNameSkip (fileNameOf zip.toList) = true := by
      unfold fileNameSkip
      rw [hef, hOr]
      rfl
    have hL : calcTemplatePathL (fun l => mkdirFails l.asString)
        zip.toList base.toList = ([], true, none) := by
      unfold calcTemplatePathL
      rw [if_pos hfs]
    unfold calculateTemplateAbsolutePath
    rw [hL]
    rfl
  · intro hef
    have hfs : fileNameSkip (fileNameOf zip.toList) = false := by
      unfold fileNameSkip
      rw [hef]
      rfl
    by_cases hrel : headIs '.' (relativeDirWithoutZipRoot zip.toList) = true
    · have hL : calcTemplatePathL (fun l => mkdirFails l.asString)
          zip.toList base.toList = ([], true, none) := by
        unfold calcTemplatePathL
        rw [if_neg (by rw [hfs]; simp), if_pos hrel]
      unfold calculateTemplateAbsolutePath
      rw [hL, hrel]
    · have hrel' : headIs '.' (relativeDirWithoutZipRoot zip.toList) = false := by
        rwa [Bool.not_eq_true] at hrel
      rw [hrel']
      by_cases hmk : (fun l => mkdirFails (List.asString l))
          (goJoinL [base.toList, relativeDirWithoutZipRoot zip.toList]) = true
      · have hL : calcTemplatePathL (fun l => mkdirFails l.asString)
            zip.toList base.toList =
            ([], false, some (mkdirFailMsg
              (goJoinL [base.toList, relativeDirWithoutZipRoot zip.toList]))) := by
          unfold calcTemplatePathL
          rw [if_neg (by rw [hfs]; simp), if_neg (by rw [hrel']; simp),
            if_pos hmk]
        unfold calculateTemplateAbsolutePath
        rw [hL]
      · have hL : calcTemplatePathL (fun l => mkdirFails l.asString)
            zip.toList base.toList =
            (goJoinL [goJoinL [base.toList, relativeDirWithoutZipRoot zip.toList],
              fileNameOf zip.toList], false, none) := by
          unfold calcTemplatePathL
          rw [if_neg (by rw [hfs]; simp), if_neg (by rw [hrel']; simp),
            if_neg hmk]
        unfold calculateTemplateAbsolutePath
        rw [hL]

/-- Witness for C3: a README entry is skipped; a version-marker entry in a
clean directory is not skipped. -/
theorem fileName_skip_rules_witness :
    calculateTemplateAbsolutePath (fun _ => false) "root/x/README.md" "/base" =
      ("", true, none) ∧
    (calculateTemplateAbsolutePath (fun _ => false) "root/sub/.version"
      "/base").2.1 = false := by
  constructor
  · exact (fileName_skip_rules (fun _ => false) "root/x/README.md" "/base").1
      (by decide) (Or.inr (Or.inr (by decide)))
  · have h := (fileName_skip_rules (fun _ => false) "root/sub/.version"
      "/base").2 (by decide)
    rw [h]
    decide

/-- C4: the first component of the entry's directory path (the archive's
root wrapper) is discarded — the resolution result does not depend on its
name — and when the root-stripped relative directory path begins with a
dot the entry is skipped with no error. -/
theorem rootStripping_and_dotGuard (mkdirFails : String → Bool) (base : String) :
    ((∀ root1 root2 rest : List Char, '/' ∉ root1 → '/' ∉ root2 →
      calculateTemplateAbsolutePath mkdirFails
          (List.asString (root1 ++ '/' :: rest)) base =
        calculateTemplateAbsolutePath mkdirFails
          (List.asString (root2 ++ '/' :: rest)) base) ∧
     (∀ zip : String, headIs '.' (relativeDirWithoutZipRoot zip.toList) = true →
      calculateTemplateAbsolutePath mkdirFails zip base = ("", true, none))) := by
  constructor
  · intro root1 root2 rest h1 h2
    unfold calculateTemplateAbsolutePath
    rw [calcTemplatePathL_congr (fun l => mkdirFails l.asString)
      (List.asString (root1 ++ '/' :: rest)).toList
      (List.asString (root2 ++ '/' :: rest)).toList base.toList
      (by show fileNameOf (root1 ++ '/' :: rest) = fileNameOf (root2 ++ '/' :: rest)
          rw [fileNameOf_append, fileNameOf_append])
      (by show relativeDirWithoutZipRoot (root1 ++ '/' :: rest) =
            relativeDirWithoutZipRoot (root2 ++ '/' :: rest)
          rw [relativeDir_append _ _ h1, relativeDir_append _ _ h2])]
  · intro zip hrel
    have hL : calcTemplatePathL (fun l => mkdirFails l.asString)
        zip.toList base.toList = ([], true, none) := by
      unfold calcTemplatePathL
      by_cases hfs : fileNameSkip (fileNameOf zip.toList) = true
      · rw [if_pos hfs]
      · rw [if_neg hfs, if_pos hrel]
    unfold calculateTemplateAbsolutePath
    rw [hL]
    rfl

/-- Witness for C4: two archives differing only in the wrapper name
resolve identically, and a dotted relative directory is skipped. -/
theorem rootStripping_and_dotGuard_witness :
    calculateTemplateAbsolutePath (fun _ => false)
        (List.asString ("rootA".toList ++ '/' :: "sub/f.txt".toList)) "/base" =
      calculateTemplateAbsolutePath (fun _ => false)
        (List.asString ("rootB".toList ++ '/' :: "sub/f.txt".toList)) "/base" ∧
    calculateTemplateAbsolutePath (fun _ => false) "root/../x/passwd" "/base" =
      ("", true, none) := by
  constructor
  · exact (rootStripping_and_dotGuard (fun _ => false) "/base").1
      "rootA".toList "rootB".toList "sub/f.txt".toList (by decide) (by decide)
  · exact (rootStripping_and_dotGuard (fun _ => false) "/base").2
      "root/../x/passwd" (by decide)

/-- C10: a version-marker file name bypasses only the file-name skip
rules; when the root-stripped relative directory begins with a dot, the
entry is still skipped. -/
theorem versionMarker_not_exempt_from_dirGuard (mkdirFails : String → Bool)
    (zip base : String)
    (hv : equalFold (fileNameOf zip.toList) ".version".toList = true)
    (hrel : headIs '.' (relativeDirWithoutZipRoot zip.toList) = true) :
    calculateTemplateAbsolutePath mkdirFails zip base = ("", true, none) := by
  have hfs : fileNameSkip (fileNameOf zip.toList) = false := by
    unfold fileNameSkip
    rw [hv]
    rfl
  have hL : calcTemplatePathL (fun l => mkdirFails l.asString)
      zip.toList base.toList = ([], true, none) := by
    unfold calcTemplatePathL
    rw [if_neg (by rw [hfs]; simp), if_pos hrel]
  unfold calculateTemplateAbsolutePath
  rw [hL]
  rfl

/-- Witness for C10: a version marker under a hidden directory is
skipped. -/
theorem versionMarker_not_exempt_from_dirGuard_witness :
    calculateTemplateAbsolutePath (fun _ => false) "root/.hidden/.version"
      "/base" = ("", true, none) :=
  versionMarker_not_exempt_from_dirGuard (fun _ => false) "root/.hidden/.version"
    "/base" (by decide) (by decide)

/-- C5: when creating the destination directory fails, the resolver
returns a non-nil error with skip false, the per-entry extraction callback
propagates that error rather than skipping, and the iteration over the
archive aborts with it. -/
theorem mkdirFailure_aborts_extraction (mkdirFails : String → Bool)
    (readResult : Option String) (writeResult : String → Option String)
    (zip base : String) (restEntries : List String)
    (h1 : fileNameSkip (fileNameOf zip.toList) = false)
    (h2 : headIs '.' (relativeDirWithoutZipRoot zip.toList) = false)
    (h3 : mkdirFails (List.asString
      (goJoinL [base.toList, relativeDirWithoutZipRoot zip.toList])) = true) :
    calculateTemplateAbsolutePath mkdirFails zip base =
      ("", false, some (List.asString (mkdirFailMsg
        (goJoinL [base.toList, relativeDirWithoutZipRoot zip.toList])))) ∧
    extractEntryCallback mkdirFails readResult writeResult zip base =
      some (List.asString (mkdirFailMsg
        (goJoinL [base.toList, relativeDirWithoutZipRoot zip.toList]))) ∧
    downloadSourceWithCallback
      (fun path => extractEntryCallback mkdirFails readResult writeResult path base)
      (zip :: restEntries) =
      some (List.asString (mkdirFailMsg
        (goJoinL [base.toList, relativeDirWithoutZipRoot zip.toList]))) := by
  have hL : calcTemplatePathL (fun l => mkdirFails l.asString)
      zip.toList base.toList =
      ([], false, some (mkdirFailMsg
        (goJoinL [base.toList, relativeDirWithoutZipRoot zip.toList]))) := by
    unfold calcTemplatePathL
    rw [if_neg (by rw [h1]; simp), if_neg (by rw [h2]; simp), if_pos h3]
  have hcalc : calculateTemplateAbsolutePath mkdirFails zip base =
      ("", false, some (List.asString (mkdirFailMsg
        (goJoinL [base.toList, relativeDirWithoutZipRoot zip.toList])))) := by
    unfold calculateTemplateAbsolutePath
    rw [hL]
    rfl
  have hcb : extractEntryCallback mkdirFails readResult writeResult zip base =
      some (List.asString (mkdirFailMsg
        (goJoinL [base.toList, relativeDirWithoutZipRoot zip.toList]))) := by
    unfold extractEntryCallback
    rw [hcalc]
  refine ⟨hcalc, hcb, ?_⟩
  unfold downloadSourceWithCallback
  rw [hcb]

/-- Witness for C5: a failing directory creation for base/sub aborts the
extraction of a two-entry archive with the creation error. -/
theorem mkdirFailure_aborts_extraction_witness :
    calculateTemplateAbsolutePath (fun s => decide (s = "/base/sub"))
      "root/sub/a.txt" "/base" =
      ("", false, some "failed to create template folder: /base/sub") ∧
    extractEntryCallback (fun s => decide (s = "/base/sub")) (some "data")
      (fun _ => none) "root/sub/a.txt" "/base" =
      some "failed to create template folder: /base/sub" ∧
    downloadSourceWithCallback
      (fun path => extractEntryCallback (fun s => decide (s = "/base/sub"))
        (some "data") (fun _ => none) path "/base")
      ["root/sub/a.txt", "root/sub/b.txt"] =
      some "failed to create template folder: /base/sub" := by
  have h := mkdirFailure_aborts_extraction (fun s => decide (s = "/base/sub"))
    (some "data") (fun _ => none) "root/sub/a.txt" "/base" ["root/sub/b.txt"]
    (by decide) (by decide) (by decide)
  refine ⟨?_, ?_, ?_⟩
  · rw [h.1]; decide
  · rw [h.2.1]; decide
  · rw [h.2.2]; decide

/-- C2: when the apply step fails, a rollback is attempted; if the
rollback succeeds the outcome is the reported, non-fatal rolled-back apply
failure, and if the rollback fails the outcome is a fatal
reinstall-instructing rollback error distinct from the apply outcome. -/
theorem applyFailure_rollback_outcomes (toolName version repoName : String)
    (env : UpdateEnv) (hd : env.downloadOk = true) (ht : env.tagParseOk = true)
    (hc : env.currentParseOk = true) (ho : env.outdated = true)
    (hp : env.permissionOk = true) (ha : env.assetOk = true)
    (happly : env.applyOk = false) :
    ((env.rollbackOk = true →
      (getUpdateToolFromRepoCallbackRun toolName version repoName env).outcome =
        UpdateOutcome.applyFailedRolledBack ∧
      UpdateOutcome.isFatal UpdateOutcome.applyFailedRolledBack = false) ∧
     (env.rollbackOk = false →
      (getUpdateToolFromRepoCallbackRun toolName version repoName env).outcome =
        UpdateOutcome.fatalRollbackFailedReinstall ∧
      UpdateOutcome.isFatal UpdateOutcome.fatalRollbackFailedReinstall = true ∧
      UpdateOutcome.fatalRollbackFailedReinstall ≠
        UpdateOutcome.applyFailedRolledBack)) := by
  constructor
  · intro hr
    refine ⟨?_, rfl⟩
    show updateOutcomeOf env = _
    unfold updateOutcomeOf
    rw [hd, ht, hc, ho, hp, ha, happly, hr]
    rfl
  · intro hr
    refine ⟨?_, rfl, by decide⟩
    show updateOutcomeOf env = _
    unfold updateOutcomeOf
    rw [hd, ht, hc, ho, hp, ha, happly, hr]
    rfl

/-- Witness for C2: a concrete apply failure with and without a working
rollback. -/
theorem applyFailure_rollback_outcomes_witness :
    (getUpdateToolFromRepoCallbackRun "tool" "1.0.0" ""
      ⟨true, true, true, true, true, true, false, true⟩).outcome =
      UpdateOutcome.applyFailedRolledBack ∧
    (getUpdateToolFromRepoCallbackRun "tool" "1.0.0" ""
      ⟨true, true, true, true, true, true, false, false⟩).outcome =
      UpdateOutcome.fatalRollbackFailedReinstall :=
  ⟨((applyFailure_rollback_outcomes "tool" "1.0.0" "" _ rfl rfl rfl rfl rfl rfl
      rfl).1 rfl).1,
   ((applyFailure_rollback_outcomes "tool" "1.0.0" "" _ rfl rfl rfl rfl rfl rfl
      rfl).2 rfl).1⟩

/-- C6: in the executable update, a permission-check failure is fatal and
prevents both the asset fetch and the apply step, and whenever asset bytes
are fetched the permission check has already happened and succeeded. -/
theorem permissionCheck_precedes_fetch (toolName version repoName : String)
    (env : UpdateEnv) :
    ((env.downloadOk = true → env.tagParseOk = true →
      env.currentParseOk = true → env.outdated = true →
      env.permissionOk = false →
      (getUpdateToolFromRepoCallbackRun toolName version repoName env).outcome =
        UpdateOutcome.fatalInsufficientPermission ∧
      UpdateStep.fetchAssetBytes ∉
        (getUpdateToolFromRepoCallbackRun toolName version repoName env).steps ∧
      UpdateStep.applyUpdate ∉
        (getUpdateToolFromRepoCallbackRun toolName version repoName env).steps) ∧
     (UpdateStep.fetchAssetBytes ∈
        (getUpdateToolFromRepoCallbackRun toolName version repoName env).steps →
      UpdateStep.checkPermissions ∈
        (getUpdateToolFromRepoCallbackRun toolName version repoName env).steps ∧
      env.permissionOk = true)) := by
  have key : ∀ d t c o p a ap r : Bool,
      ((d = true → t = true → c = true → o = true → p = false →
        updateOutcomeOf ⟨d, t, c, o, p, a, ap, r⟩ =
          UpdateOutcome.fatalInsufficientPermission ∧
        UpdateStep.fetchAssetBytes ∉ updateSteps ⟨d, t, c, o, p, a, ap, r⟩ ∧
        UpdateStep.applyUpdate ∉ updateSteps ⟨d, t, c, o, p, a, ap, r⟩) ∧
       (UpdateStep.fetchAssetBytes ∈ updateSteps ⟨d, t, c, o, p, a, ap, r⟩ →
        UpdateStep.checkPermissions ∈ updateSteps ⟨d, t, c, o, p, a, ap, r⟩ ∧
        p = true)) := by decide
  obtain ⟨d, t, c, o, p, a, ap, r⟩ := env
  exact key d t c o p a ap r

/-- Witness for C6: a permission failure on an otherwise healthy run, and
a full run where fetching implies a successful earlier permission
check. -/
theorem permissionCheck_precedes_fetch_witness :
    ((getUpdateToolFromRepoCallbackRun "tool" "1.0.0" ""
        ⟨true, true, true, true, false, true, true, true⟩).outcome =
      UpdateOutcome.fatalInsufficientPermission ∧
      UpdateStep.fetchAssetBytes ∉
        (getUpdateToolFromRepoCallbackRun "tool" "1.0.0" ""
          ⟨true, true, true, true, false, true, true, true⟩).steps ∧
      UpdateStep.applyUpdate ∉
        (getUpdateToolFromRepoCallbackRun "tool" "1.0.0" ""
          ⟨true, true, true, true, false, true, true, true⟩).steps) ∧
    (UpdateStep.checkPermissions ∈
      (getUpdateToolFromRepoCallbackRun "tool" "1.0.0" ""
        ⟨true, true, true, true, true, true, true, true⟩).steps ∧
      (⟨true, true, true, true, true, true, true, true⟩ : UpdateEnv).permissionOk
        = true) :=
  ⟨(permissionCheck_precedes_fetch "tool" "1.0.0" "" _).1 rfl rfl rfl rfl rfl,
   (permissionCheck_precedes_fetch "tool" "1.0.0" "" _).2 (by decide)⟩

/-- C7: each of the three callbacks replaces an empty repository
identifier by the tool name before contacting the release source. -/
theorem emptyRepoName_defaults_toolName (toolName version dir : String)
    (env : UpdateEnv) (venv : VersionEnv) (mkdirFails : String → Bool)
    (readResult : Option String) (writeResult : String → Option String)
    (denv : DirEnv) :
    (getUpdateToolFromRepoCallbackRun toolName version "" env).contactedRepo =
      toolName ∧
    (getToolVersionCallbackRun toolName "" venv).2 = toolName ∧
    (getUpdateDirFromRepoCallbackRun toolName dir "" mkdirFails readResult
      writeResult denv).2 = toolName := by
  refine ⟨rfl, ?_, ?_⟩
  · unfold getToolVersionCallbackRun
    rcases venv with ⟨dok, tok, tag⟩
    cases dok <;> cases tok <;> rfl
  · unfold getUpdateDirFromRepoCallbackRun
    rcases denv with ⟨dok, entries⟩
    cases dok <;> rfl

/-- Counterexample for C8 as stated: the encoded query of GetpdtmParams
never carries a parameter named tool_runtime_version; the toolchain
version travels under the name go_version. -/
theorem getpdtmParams_counterexample :
    ¬ ("tool_runtime_version" ∈
      (GetpdtmParams ⟨"linux", "amd64", "go1.21.0", some "machineid"⟩
        "1.0.0").map Prod.fst) ∧
    (GetpdtmParams ⟨"linux", "amd64", "go1.21.0", some "machineid"⟩
      "1.0.0").map Prod.fst = ["arch", "go_version", "machine_id", "os", "v"] := by
  decide

/-- C8 (amended): for every runtime identity and version string, the
encoded query of GetpdtmParams carries exactly the five parameters os,
arch, go_version, v and machine_id, in encoded (sorted) order. -/
theorem getpdtmParams_keys (env : RuntimeEnv) (version : String) :
    (GetpdtmParams env version).map Prod.fst =
      ["arch", "go_version", "machine_id", "os", "v"] := rfl

/-- C9: the HTTP client installed by package initialization disables TLS
certificate verification in its transport. -/
theorem defaultHttpClient_insecureSkipVerify :
    defaultHttpClientAfterInit.transport.tlsClientConfig.insecureSkipVerify =
      true := rfl

example : calculateTemplateAbsolutePath (fun _ => false) "root/sub/file.txt" "/base" =
    ("/base/sub/file.txt", false, none) := by decide
example : calculateTemplateAbsolutePath (fun _ => false) "root/../../etc/passwd" "/base" =
    ("", true, none) := by decide
example : calculateTemplateAbsolutePath (fun _ => false) "/etc/passwd" "/base" =
    ("/base/etc/passwd", false, none) := by decide
example : calculateTemplateAbsolutePath (fun _ => false) "root/.version" "/base" =
    ("/base/.version", false, none) := by decide
example : calculateTemplateAbsolutePath (fun _ => false) "root/README.MD" "/base" =
    ("", true, none) := by decide
example : calculateTemplateAbsolutePath (fun _ => false) "root/.hidden/.version" "/base" =
    ("", true, none) := by decide
example : isDescendant "/base/sub/file.txt" "/base" = true := by decide
example : isDescendant "/etc/passwd" "/base" = false := by decide
example : isDescendant "../x" ".." = true := by decide
example : isDescendant "x/y" "" = true := by decide

end UpdateUtils
